import Mathlib

/- Shallow embedding of the provider-name extraction and fuzzy cross-matching
pipeline of the lead-gen repository (src/propublica.py and src/scraper.py).

Modelling conventions:
* Python str is modelled as Lean String / List Char.  Text predicates
  (str.lower, str.upper, str.title, regex \w and \s classes) are given their
  ASCII semantics, which covers the repository's data.
* Python floats are modelled as exact rationals.
* difflib.SequenceMatcher.ratio is modelled by the Ratcliff/Obershelp scheme
  it implements: the total size of recursively found longest matching blocks,
  scaled by the summed lengths; find_longest_match is modelled by its
  specification (largest block, ties resolved to the earliest start in the
  first string, then in the second).  The autojunk heuristic, which only
  activates on strings of length at least 200, is not modelled.
* The PDF text extraction (pdfplumber) is an external collaborator (spec
  section 6); parse_providers_from_town_pdf is embedded as a function of the
  already extracted, cleaned text lines that its loop consumes.
-/

/-- Python regex \s character class, ASCII range. -/
def isSpaceCh (c : Char) : Bool :=
  c = ' ' || c = '\t' || c = '\n' || c = '\r' || c = '\x0b' || c = '\x0c'

/-- Python regex \w character class, ASCII range. -/
def isWordChar (c : Char) : Bool :=
  c.isAlphanum || c = '_'

/-- Python str.lower, ASCII. -/
def lowerL (l : List Char) : List Char := l.map Char.toLower

/-- Python str.upper, ASCII. -/
def upperL (l : List Char) : List Char := l.map Char.toUpper

/-- Python str.strip (whitespace from both ends). -/
def stripL (l : List Char) : List Char :=
  ((l.dropWhile isSpaceCh).reverse.dropWhile isSpaceCh).reverse

/-- String-level strip. -/
def stripS (s : String) : String := ⟨stripL s.data⟩

/-- re.sub of a whitespace run by a single space: the Bool records whether the
previous character was part of a whitespace run. -/
def collapseWS : Bool → List Char → List Char
  | _, [] => []
  | prevSp, c :: rest =>
    if isSpaceCh c then
      if prevSp then collapseWS true rest else ' ' :: collapseWS true rest
    else c :: collapseWS false rest

/-- re.sub removing every character that is neither a word character nor
whitespace. -/
def filterWS (l : List Char) : List Char :=
  l.filter (fun c => isWordChar c || isSpaceCh c)

/-- Does the second list start with the first one (list-level startswith)? -/
def leadsWith : List Char → List Char → Bool
  | [], _ => true
  | _ :: _, [] => false
  | a :: as, b :: bs => a = b && leadsWith as bs

/-- Attempted regex match of a suffix token pattern at the head of l.
The pattern is token, optionally a period (when allowDot, mirroring the
patterns written with an optional dot), followed by a word boundary; the
word boundary before the token is checked by the caller.  Returns the number
of consumed characters.  The optional period is greedy with backtracking,
as in Python re. -/
def tryTokLen (tok : List Char) (allowDot : Bool) (l : List Char) : Option Nat :=
  if tok = [] then none
  else if leadsWith tok l then
    match l.drop tok.length with
    | '.' :: rest2 =>
      if allowDot then
        match rest2 with
        | c :: _ => if isWordChar c then some (tok.length + 1) else some tok.length
        | [] => some tok.length
      else some tok.length
    | c :: _ => if isWordChar c then none else some tok.length
    | [] => some tok.length
  else none

/-- One pass of re.sub for a word-bounded suffix token: scan left to right,
delete each non-overlapping match.  skip counts characters of a match still
to be consumed; prevW records whether the previous character of the original
string was a word character (the lookbehind part of the word boundary). -/
def subScanGo (tok : List Char) (allowDot : Bool) : Nat → Bool → List Char → List Char
  | _, _, [] => []
  | skip, prevW, c :: rest =>
    if skip = 0 then
      match (if prevW then none else tryTokLen tok allowDot (c :: rest)) with
      | some n => subScanGo tok allowDot (n - 1) (isWordChar c) rest
      | none => c :: subScanGo tok allowDot 0 (isWordChar c) rest
    else subScanGo tok allowDot (skip - 1) (isWordChar c) rest

/-- re.sub of one word-bounded suffix token by the empty string. -/
def subAll (tok : String) (allowDot : Bool) (l : List Char) : List Char :=
  subScanGo tok.data allowDot 0 false l

/-- The eight suffix substitutions of normalize_org_name, applied in source
order.  allowDot records which patterns carry the optional trailing period. -/
def removeSuffixesL (l0 : List Char) : List Char :=
  let l1 := subAll "inc" true l0
  let l2 := subAll "incorporated" false l1
  let l3 := subAll "llc" false l2
  let l4 := subAll "corp" true l3
  let l5 := subAll "corporation" false l4
  let l6 := subAll "ltd" true l5
  let l7 := subAll "co" true l6
  subAll "foundation" false l7

/-- The eight suffix tokens as character lists, in source order. -/
def suffixTokenChars : List (List Char) :=
  ["inc".data, "incorporated".data, "llc".data, "corp".data,
   "corporation".data, "ltd".data, "co".data, "foundation".data]

/-- List-level normalize_org_name: lowercase, remove suffix tokens, strip
punctuation, collapse whitespace, trim. -/
def normalizeL (l : List Char) : List Char :=
  stripL (collapseWS false (filterWS (removeSuffixesL (lowerL l))))

/-- propublica.normalize_org_name. -/
def normalize_org_name (s : String) : String := ⟨normalizeL s.data⟩

/-- Length of the longest common extension of two lists at their heads. -/
def commonLen : List Char → List Char → Nat
  | a :: as, b :: bs => if a = b then commonLen as bs + 1 else 0
  | _, _ => 0

/-- Size of the matching block starting at positions i and j, clipped to the
windows ending at ahi and bhi. -/
def blockAt (a b : List Char) (ahi bhi i j : Nat) : Nat :=
  Nat.min (commonLen (a.drop i) (b.drop j)) (Nat.min (ahi - i) (bhi - j))

/-- The candidate start pairs of find_longest_match, in scan order. -/
def flmCands (alo ahi blo bhi : Nat) : List (Nat × Nat) :=
  (List.range (ahi - alo)).flatMap
    (fun di => (List.range (bhi - blo)).map (fun dj => (alo + di, blo + dj)))

/-- One comparison step of find_longest_match: a strictly larger block
replaces the best, so the earliest candidate in scan order wins ties. -/
def flmStep (a b : List Char) (ahi bhi : Nat) (best : Nat × Nat × Nat) (ij : Nat × Nat) :
    Nat × Nat × Nat :=
  if best.2.2 < blockAt a b ahi bhi ij.1 ij.2 then (ij.1, ij.2, blockAt a b ahi bhi ij.1 ij.2)
  else best

/-- SequenceMatcher.find_longest_match on the windows [alo,ahi) and
[blo,bhi): the largest matching block, ties to the smallest start in a,
then the smallest start in b. -/
def flm (a b : List Char) (alo ahi blo bhi : Nat) : Nat × Nat × Nat :=
  (flmCands alo ahi blo bhi).foldl (flmStep a b ahi bhi) (alo, blo, 0)

/-- Total size of the matching blocks found by the recursive
Ratcliff/Obershelp divide and conquer of SequenceMatcher.get_matching_blocks.
The fuel only has to dominate the recursion depth, which is bounded by the
window length in a. -/
def matchesTot (a b : List Char) : Nat → Nat → Nat → Nat → Nat → Nat
  | 0, _, _, _, _ => 0
  | fuel+1, alo, ahi, blo, bhi =>
    if (flm a b alo ahi blo bhi).2.2 = 0 then 0
    else
      matchesTot a b fuel alo (flm a b alo ahi blo bhi).1 blo (flm a b alo ahi blo bhi).2.1 +
        (flm a b alo ahi blo bhi).2.2 +
        matchesTot a b fuel ((flm a b alo ahi blo bhi).1 + (flm a b alo ahi blo bhi).2.2) ahi
          ((flm a b alo ahi blo bhi).2.1 + (flm a b alo ahi blo bhi).2.2) bhi

/-- SequenceMatcher(None, a, b).ratio(): 2 * matches / total length, and 1.0
when both strings are empty. -/
def ratioL (a b : List Char) : ℚ :=
  if a.length + b.length = 0 then 1
  else
    2 * (matchesTot a b (a.length + 1) 0 a.length 0 b.length : ℚ) /
      ((a.length + b.length : Nat) : ℚ)

/-- propublica.calculate_similarity: both inputs are normalized, then the
SequenceMatcher ratio of the two normalized strings is returned. -/
def calculate_similarity (name1 name2 : String) : ℚ :=
  ratioL (normalize_org_name name1).data (normalize_org_name name2).data

/-- Python max on two rationals, written so that it evaluates by kernel
reduction. -/
def qmax (a b : ℚ) : ℚ := if a ≤ b then b else a

/-- A DDS provider record: a dict with name and url keys. -/
structure Provider where
  name : String
  url : String
deriving DecidableEq

/-- Python substring test (needle in hay). -/
def isWithin : List Char → List Char → Bool
  | n, [] => leadsWith n []
  | n, h :: t => leadsWith n (h :: t) || isWithin n t

/-- The score match_to_dds_provider computes for one candidate: the fuzzy
similarity, boosted to max(score, 0.75 + containment_score * 0.2) when one
normalized name contains the other, with
containment_score = len(norm_dds) / max(len(norm_propublica), 1). -/
def matchScore (propublica_name : String) (provider : Provider) : ℚ :=
  let normP := (normalize_org_name propublica_name).data
  let normD := (normalize_org_name provider.name).data
  let score := calculate_similarity propublica_name provider.name
  if isWithin normD normP || isWithin normP normD then
    qmax score (3/4 + ((normD.length : ℚ) / ((Nat.max normP.length 1 : Nat) : ℚ)) * (1/5))
  else score

/-- The best_match / best_score loop of match_to_dds_provider: the best is
replaced only on a strictly larger score. -/
def matchLoop (propublica_name : String) : List Provider → Option Provider → ℚ → Option Provider × ℚ
  | [], bm, bs => (bm, bs)
  | p :: rest, bm, bs =>
    if bs < matchScore propublica_name p then
      matchLoop propublica_name rest (some p) (matchScore propublica_name p)
    else matchLoop propublica_name rest bm bs

/-- propublica.match_to_dds_provider: run the loop from (None, 0.0). When
the best score reaches the threshold, the success branch first interpolates
best_match["name"] into its log line; if best_match is still None (no
candidate ever scored strictly above 0.0) that subscript raises TypeError,
modelled as Except.error (). Otherwise the best match is returned; below the
threshold the function returns None. -/
def match_to_dds_provider (propublica_name : String) (dds_providers : List Provider)
    (threshold : ℚ) : Except Unit (Option Provider) :=
  if threshold ≤ (matchLoop propublica_name dds_providers none 0).2 then
    match (matchLoop propublica_name dds_providers none 0).1 with
    | some p => Except.ok (some p)
    | none => Except.error ()
  else Except.ok none

/-- Maximum of the candidate scores folded from a seed, mirroring the loop's
best_score evolution. -/
def foldMax (propublica_name : String) (seed : ℚ) (ps : List Provider) : ℚ :=
  ps.foldl (fun b p => qmax b (matchScore propublica_name p)) seed

/-- The final best_score of the loop: the candidate scores folded from 0. -/
def maxScore (propublica_name : String) (ps : List Provider) : ℚ :=
  foldMax propublica_name 0 ps

/-- scraper.HEADINGS. -/
def HEADINGS : List String :=
  ["DDS QUALIFIED PROVIDERS BY TOWN", "PROVIDER NAME", "LINK TO PROVIDER PROFILE",
   "DDS QUALIFIED PROVIDERS", "QUALIFIED PROVIDERS BY TOWN"]

/-- Python str.isdigit, ASCII. -/
def isDigitL (l : List Char) : Bool := !l.isEmpty && l.all Char.isDigit

/-- Case-insensitive match of a lowercase literal pattern at the head of the
text. -/
def ciLeads : List Char → List Char → Bool
  | [], _ => true
  | _ :: _, [] => false
  | p :: ps, c :: cs => c.toLower = p && ciLeads ps cs

/-- Is there exactly an n-digit run at the head? -/
def digitRun (l : List Char) (n : Nat) : Bool :=
  (l.take n).length = n && (l.take n).all Char.isDigit

/-- Tail of the date regex: the year digits followed by a word boundary. -/
def dateTail (l : List Char) (n3 : Nat) : Bool :=
  digitRun l n3 &&
    match l.drop n3 with
    | [] => true
    | c :: _ => !isWordChar c

/-- DATE_RE matched at the head of l (the leading word boundary is checked by
the caller): one or two digits, slash, one or two digits, slash, two to four
digits, word boundary. -/
def dateHere (l : List Char) : Bool :=
  [1, 2].any fun n1 =>
    digitRun l n1 &&
      match l.drop n1 with
      | '/' :: r1 =>
        [1, 2].any fun n2 =>
          digitRun r1 n2 &&
            match r1.drop n2 with
            | '/' :: r2 => [2, 3, 4].any fun n3 => dateTail r2 n3
            | _ => false
      | _ => false

/-- DATE_RE.search: scan every position, tracking whether the previous
character was a word character for the leading word boundary. -/
def dateSearchGo : Bool → List Char → Bool
  | _, [] => false
  | prevW, c :: rest => (!prevW && dateHere (c :: rest)) || dateSearchGo (isWordChar c) rest

/-- DATE_RE.search over a whole line. -/
def dateSearch (l : List Char) : Bool := dateSearchGo false l

/-- scraper._is_candidate_name: the sequence of rejection tests applied to a
potential provider-name line. -/
def isCandidateName (line town_name : String) : Bool :=
  let l := line.data
  if l.isEmpty then false
  else if isWithin "http://".data l || isWithin "https://".data l then false
  else if HEADINGS.contains ⟨upperL l⟩ then false
  else if dateSearch l then false
  else if isDigitL l then false
  else if !town_name.data.isEmpty && upperL l == upperL town_name.data then false
  else if l.length ≤ 2 then false
  else true

/-- The non-greedy part of URL_RE after the scheme: at least one non-space
character, as few as possible, then a literal period and pdf, case
insensitively.  Returns the number of characters consumed. -/
def ngPdf : List Char → Option Nat
  | [] => none
  | c :: rest =>
    if isSpaceCh c then none
    else if ciLeads ".pdf".data rest then some 5
    else
      match ngPdf rest with
      | some n => some (n + 1)
      | none => none

/-- URL_RE matched at the head of l: http, an optional s (greedy, as in the
regex https?), the separator, then the non-greedy pdf part.  Returns the
length of the whole match. -/
def tryURLAt (l : List Char) : Option Nat :=
  if ciLeads "http".data l then
    match l.drop 4 with
    | c :: r2 =>
      if c.toLower = 's' then
        if ciLeads "://".data r2 then
          match ngPdf (r2.drop 3) with
          | some m => some (m + 8)
          | none => none
        else none
      else
        if ciLeads "://".data (c :: r2) then
          match ngPdf ((c :: r2).drop 3) with
          | some m => some (m + 7)
          | none => none
        else none
    | [] => none
  else none

/-- URL_RE.search: the leftmost match, as a start index and a length. -/
def searchURLGo : Nat → List Char → Option (Nat × Nat)
  | _, [] => none
  | i, c :: rest =>
    match tryURLAt (c :: rest) with
    | some n => some (i, n)
    | none => searchURLGo (i+1) rest

/-- URL_RE.search over a whole line. -/
def searchURL (l : List Char) : Option (Nat × Nat) := searchURLGo 0 l

/-- The matched URL text: match.group(0) of URL_RE at start i with length n. -/
def urlAt (line : String) (i n : Nat) : String := ⟨(line.data.drop i).take n⟩

/-- The text of the line preceding the URL match, stripped:
line[: match.start()].strip(). -/
def nameBefore (line : String) (i : Nat) : String := stripS ⟨line.data.take i⟩

/-- The final path segment: url.split("/")[-1]. -/
def lastSegment (l : List Char) : List Char :=
  (l.reverse.takeWhile (fun c => c != '/')).reverse

/-- The re.sub of the (broken) pattern of a literal backslash, any character,
and pdf at the end of the segment, case insensitively: the source writes the
pattern in a raw string as a double backslash followed by the dot
metacharacter, so a literal backslash is required for the pattern to match
and a plain trailing period-pdf is never stripped. -/
def brokenPdfSub (l : List Char) : List Char :=
  match l.reverse with
  | f :: d :: p :: x :: b :: rest =>
    if f.toLower == 'f' && d.toLower == 'd' && p.toLower == 'p' && x != '\n' && b == '\\' then
      rest.reverse
    else l
  | _ => l

/-- Python str.replace of the three-character profile-suffix token by the
empty string (left to right, non-overlapping). -/
def replPP : List Char → List Char
  | '_' :: 'p' :: 'p' :: rest => replPP rest
  | c :: rest => c :: replPP rest
  | [] => []

/-- Python str.replace of one character by another. -/
def swapCh (a b : Char) (l : List Char) : List Char :=
  l.map (fun c => if c = a then b else c)

/-- Python str.title, ASCII: a letter is uppercased after a non-letter and
lowercased after a letter. -/
def titleGo : Bool → List Char → List Char
  | _, [] => []
  | prevAlpha, c :: rest =>
    if c.isAlpha then
      (if prevAlpha then c.toLower else c.toUpper) :: titleGo true rest
    else c :: titleGo false rest

/-- scraper._infer_name_from_url: final path segment, the broken trailing-pdf
substitution, profile-suffix removal, hyphens and underscores to spaces; the
placeholder is used when the string is empty before stripping and
title-casing. -/
def inferNameFromUrl (url : String) : String :=
  let seg := lastSegment url.data
  let n1 := brokenPdfSub seg
  let n2 := replPP n1
  let n3 := swapCh '_' ' ' (swapCh '-' ' ' n2)
  if n3.isEmpty then "provider" else ⟨titleGo false (stripL n3)⟩

/-- Modelled from the spec (section 4.3, link-bearing line fallback), as the
refinement target the code is compared against: take the final path segment,
strip a trailing period-pdf, remove an embedded profile-suffix token, replace
hyphens and underscores with spaces, title-case the result, trim, and use the
placeholder if this yields an empty string. -/
def inferNameFromUrlSpec (url : String) : String :=
  let seg := lastSegment url.data
  let n1 := if ciLeads "fdp.".data seg.reverse then seg.take (seg.length - 4) else seg
  let n2 := replPP n1
  let n3 := swapCh '_' ' ' (swapCh '-' ' ' n2)
  let n4 := stripL (titleGo false n3)
  if n4.isEmpty then "provider" else ⟨n4⟩

/-- No two adjacent whitespace characters (invariant of whitespace-collapsed
text, used for the normalizer's fixpoint analysis). -/
abbrev noDblSpace (l : List Char) : Prop :=
  List.Chain' (fun a b => ¬(isSpaceCh a = true ∧ isSpaceCh b = true)) l

/-- The parser state carried across lines: the emitted records, the set of
already emitted urls, and the last plausible name line. -/
structure ParseState where
  providers : List Provider
  seen_urls : List String
  last_name : Option String
deriving DecidableEq

/-- The continuation-line test: the line contains an opening parenthesis, its
stripped text starts with one, and at least one provider has been emitted. -/
def contLineCond (st : ParseState) (line : String) : Bool :=
  line.data.contains '(' && leadsWith "(".data (stripL line.data) && !st.providers.isEmpty

/-- Append the continuation line to the name of the most recently emitted
provider (the last element of the list), with a separating space, stripped. -/
def appendToLastName : List Provider → String → List Provider
  | [], _ => []
  | [p], line => [⟨stripS (p.name ++ " " ++ line), p.url⟩]
  | p :: q :: rest, line => p :: appendToLastName (q :: rest) line

/-- One iteration of the line loop of parse_providers_from_town_pdf. -/
def parseStep (town_name : String) (st : ParseState) (line : String) : ParseState :=
  if contLineCond st line then
    ⟨appendToLastName st.providers line, st.seen_urls, st.last_name⟩
  else
    match searchURL line.data with
    | some (i, n) =>
      let url := urlAt line i n
      if url ∈ st.seen_urls then st
      else
        let name_part := nameBefore line i
        let name : Option String :=
          if isCandidateName name_part town_name then some name_part
          else
            match st.last_name with
            | some ln => if isCandidateName ln town_name then some ln else none
            | none => none
        ⟨st.providers ++ [⟨(match name with | some nm => nm | none => inferNameFromUrl url), url⟩],
         url :: st.seen_urls,
         (match name with | some nm => some nm | none => st.last_name)⟩
    | none =>
      if isCandidateName line town_name then ⟨st.providers, st.seen_urls, some line⟩ else st

/-- The line loop of scraper.parse_providers_from_town_pdf, over the already
extracted and cleaned text lines (the PDF text extraction is the external
collaborator of spec section 6). -/
def parse_providers_from_town_pdf (lines : List String) (town_name : String) : List Provider :=
  (lines.foldl (parseStep town_name) ⟨[], [], none⟩).providers

/-- The unconditional loop invariant of the parser state: every emitted
record has a non-empty url recorded in the seen set, and the emitted urls
are pairwise distinct. -/
def ParseInv (st : ParseState) : Prop :=
  (∀ r ∈ st.providers, r.url ≠ "" ∧ r.url ∈ st.seen_urls) ∧
  (st.providers.map Provider.url).Nodup

theorem blockAt_le_a (a b : List Char) (ahi bhi i j : Nat) :
    blockAt a b ahi bhi i j ≤ ahi - i := by
  unfold blockAt
  exact le_trans (Nat.min_le_right _ _) (Nat.min_le_left _ _)

theorem blockAt_le_b (a b : List Char) (ahi bhi i j : Nat) :
    blockAt a b ahi bhi i j ≤ bhi - j := by
  unfold blockAt
  exact le_trans (Nat.min_le_right _ _) (Nat.min_le_right _ _)

theorem mem_flmCands {alo ahi blo bhi : Nat} {ij : Nat × Nat}
    (h : ij ∈ flmCands alo ahi blo bhi) :
    alo ≤ ij.1 ∧ ij.1 < ahi ∧ blo ≤ ij.2 ∧ ij.2 < bhi := by
  unfold flmCands at h
  rw [List.mem_flatMap] at h
  obtain ⟨di, hdi, hmem⟩ := h
  rw [List.mem_map] at hmem
  obtain ⟨dj, hdj, rfl⟩ := hmem
  rw [List.mem_range] at hdi
  rw [List.mem_range] at hdj
  exact ⟨Nat.le_add_right _ _, by omega, Nat.le_add_right _ _, by omega⟩

theorem flm_bounds (a b : List Char) (alo ahi blo bhi : Nat)
    (h : (flm a b alo ahi blo bhi).2.2 ≠ 0) :
    alo ≤ (flm a b alo ahi blo bhi).1 ∧
    (flm a b alo ahi blo bhi).1 + (flm a b alo ahi blo bhi).2.2 ≤ ahi ∧
    blo ≤ (flm a b alo ahi blo bhi).2.1 ∧
    (flm a b alo ahi blo bhi).2.1 + (flm a b alo ahi blo bhi).2.2 ≤ bhi := by
  have main : ∀ (l : List (Nat × Nat)) (acc : Nat × Nat × Nat),
      (∀ ij ∈ l, alo ≤ ij.1 ∧ ij.1 < ahi ∧ blo ≤ ij.2 ∧ ij.2 < bhi) →
      (acc.2.2 ≠ 0 → alo ≤ acc.1 ∧ acc.1 + acc.2.2 ≤ ahi ∧ blo ≤ acc.2.1 ∧
        acc.2.1 + acc.2.2 ≤ bhi) →
      ((l.foldl (flmStep a b ahi bhi) acc).2.2 ≠ 0 →
        alo ≤ (l.foldl (flmStep a b ahi bhi) acc).1 ∧
        (l.foldl (flmStep a b ahi bhi) acc).1 + (l.foldl (flmStep a b ahi bhi) acc).2.2 ≤ ahi ∧
        blo ≤ (l.foldl (flmStep a b ahi bhi) acc).2.1 ∧
        (l.foldl (flmStep a b ahi bhi) acc).2.1 + (l.foldl (flmStep a b ahi bhi) acc).2.2 ≤ bhi) := by
    intro l
    induction l with
    | nil => intro acc hq hacc; simpa using hacc
    | cons ij rest ih =>
      intro acc hq hacc
      rw [List.foldl_cons]
      apply ih
      · intro x hx; exact hq x (List.mem_cons_of_mem _ hx)
      · intro hne
        unfold flmStep at hne ⊢
        by_cases hlt : acc.2.2 < blockAt a b ahi bhi ij.1 ij.2
        · rw [if_pos hlt]
          obtain ⟨ha1, ha2, hb1, hb2⟩ := hq ij (List.mem_cons_self _ _)
          have h1 := blockAt_le_a a b ahi bhi ij.1 ij.2
          have h2 := blockAt_le_b a b ahi bhi ij.1 ij.2
          show alo ≤ ij.1 ∧ ij.1 + blockAt a b ahi bhi ij.1 ij.2 ≤ ahi ∧
            blo ≤ ij.2 ∧ ij.2 + blockAt a b ahi bhi ij.1 ij.2 ≤ bhi
          refine ⟨ha1, ?_, hb1, ?_⟩ <;> omega
        · rw [if_neg hlt]
          rw [if_neg hlt] at hne
          exact hacc hne
  exact main (flmCands alo ahi blo bhi) (alo, blo, 0) (fun ij hij => mem_flmCands hij)
    (fun hne => absurd rfl hne) h

theorem matchesTot_le_a (a b : List Char) :
    ∀ (fuel alo ahi blo bhi : Nat), matchesTot a b fuel alo ahi blo bhi ≤ ahi - alo := by
  intro fuel
  induction fuel with
  | zero => intro alo ahi blo bhi; simp [matchesTot]
  | succ n ih =>
    intro alo ahi blo bhi
    by_cases h0 : (flm a b alo ahi blo bhi).2.2 = 0
    · simp [matchesTot, h0]
    · have hb := flm_bounds a b alo ahi blo bhi h0
      have ih1 := ih alo (flm a b alo ahi blo bhi).1 blo (flm a b alo ahi blo bhi).2.1
      have ih2 := ih ((flm a b alo ahi blo bhi).1 + (flm a b alo ahi blo bhi).2.2) ahi
        ((flm a b alo ahi blo bhi).2.1 + (flm a b alo ahi blo bhi).2.2) bhi
      simp only [matchesTot, h0, if_false]
      omega

theorem matchesTot_le_b (a b : List Char) :
    ∀ (fuel alo ahi blo bhi : Nat), matchesTot a b fuel alo ahi blo bhi ≤ bhi - blo := by
  intro fuel
  induction fuel with
  | zero => intro alo ahi blo bhi; simp [matchesTot]
  | succ n ih =>
    intro alo ahi blo bhi
    by_cases h0 : (flm a b alo ahi blo bhi).2.2 = 0
    · simp [matchesTot, h0]
    · have hb := flm_bounds a b alo ahi blo bhi h0
      have ih1 := ih alo (flm a b alo ahi blo bhi).1 blo (flm a b alo ahi blo bhi).2.1
      have ih2 := ih ((flm a b alo ahi blo bhi).1 + (flm a b alo ahi blo bhi).2.2) ahi
        ((flm a b alo ahi blo bhi).2.1 + (flm a b alo ahi blo bhi).2.2) bhi
      simp only [matchesTot, h0, if_false]
      omega

theorem ratioL_nonneg (a b : List Char) : 0 ≤ ratioL a b := by
  unfold ratioL
  split
  · norm_num
  · positivity

theorem ratioL_le_one (a b : List Char) : ratioL a b ≤ 1 := by
  unfold ratioL
  split
  · norm_num
  · rename_i hne
    rw [div_le_one (by positivity)]
    have h1 := matchesTot_le_a a b (a.length + 1) 0 a.length 0 b.length
    have h2 := matchesTot_le_b a b (a.length + 1) 0 a.length 0 b.length
    push_cast
    have : 2 * matchesTot a b (a.length + 1) 0 a.length 0 b.length ≤ a.length + b.length := by
      omega
    exact_mod_cast this

theorem le_qmax_left (a b : ℚ) : a ≤ qmax a b := by
  unfold qmax; split <;> [assumption; exact le_refl a]

theorem le_qmax_right (a b : ℚ) : b ≤ qmax a b := by
  unfold qmax
  split
  · exact le_refl b
  · exact le_of_not_le (by assumption)

theorem qmax_le {a b c : ℚ} (h1 : a ≤ c) (h2 : b ≤ c) : qmax a b ≤ c := by
  unfold qmax; split <;> assumption

theorem qmax_eq_right {a b : ℚ} (h : a ≤ b) : qmax a b = b := by
  unfold qmax; rw [if_pos h]

theorem qmax_eq_left {a b : ℚ} (h : b ≤ a) : qmax a b = a := by
  unfold qmax
  split
  · exact le_antisymm h (by assumption)
  · rfl

theorem foldMax_nil (t : String) (bs : ℚ) : foldMax t bs [] = bs := by
  unfold foldMax
  rw [List.foldl_nil]

theorem foldMax_cons (t : String) (bs : ℚ) (p : Provider) (rest : List Provider) :
    foldMax t bs (p :: rest) = foldMax t (qmax bs (matchScore t p)) rest := by
  unfold foldMax
  rw [List.foldl_cons]

theorem matchLoop_nil (t : String) (bm : Option Provider) (bs : ℚ) :
    matchLoop t [] bm bs = (bm, bs) := by
  rw [matchLoop]

theorem matchLoop_cons (t : String) (p : Provider) (rest : List Provider)
    (bm : Option Provider) (bs : ℚ) :
    matchLoop t (p :: rest) bm bs =
      if bs < matchScore t p then matchLoop t rest (some p) (matchScore t p)
      else matchLoop t rest bm bs := by
  rw [matchLoop]

theorem seed_le_foldMax (t : String) : ∀ (ps : List Provider) (bs : ℚ), bs ≤ foldMax t bs ps := by
  intro ps
  induction ps with
  | nil => intro bs; exact le_refl bs
  | cons p rest ih =>
    intro bs
    rw [foldMax_cons]
    exact le_trans (le_qmax_left bs (matchScore t p)) (ih (qmax bs (matchScore t p)))

theorem matchLoop_snd (t : String) :
    ∀ (ps : List Provider) (bm : Option Provider) (bs : ℚ),
      (matchLoop t ps bm bs).2 = foldMax t bs ps := by
  intro ps
  induction ps with
  | nil => intro bm bs; rw [matchLoop_nil, foldMax_nil]
  | cons p rest ih =>
    intro bm bs
    rw [matchLoop_cons, foldMax_cons]
    by_cases hlt : bs < matchScore t p
    · rw [if_pos hlt, ih, qmax_eq_right (le_of_lt hlt)]
    · rw [if_neg hlt, ih, qmax_eq_left (le_of_not_lt hlt)]

theorem matchLoop_fst (t : String) :
    ∀ (ps : List Provider) (bm : Option Provider) (bs : ℚ),
      (matchLoop t ps bm bs).1 =
        if bs < foldMax t bs ps then
          ps.find? (fun p => decide (foldMax t bs ps ≤ matchScore t p))
        else bm := by
  intro ps
  induction ps with
  | nil =>
    intro bm bs
    rw [matchLoop_nil, foldMax_nil, if_neg (lt_irrefl bs)]
  | cons p rest ih =>
    intro bm bs
    rw [matchLoop_cons]
    by_cases hlt : bs < matchScore t p
    · have hM : foldMax t bs (p :: rest) = foldMax t (matchScore t p) rest := by
        rw [foldMax_cons, qmax_eq_right (le_of_lt hlt)]
      have hsle : matchScore t p ≤ foldMax t bs (p :: rest) := by
        rw [hM]; exact seed_le_foldMax t rest (matchScore t p)
      rw [if_pos hlt, ih, if_pos (lt_of_lt_of_le hlt hsle), hM]
      by_cases h2 : matchScore t p < foldMax t (matchScore t p) rest
      · rw [if_pos h2, List.find?_cons_of_neg]
        simp only [decide_eq_true_eq]
        exact not_le_of_lt h2
      · rw [if_neg h2, List.find?_cons_of_pos]
        simp only [decide_eq_true_eq]
        exact le_of_not_lt h2
    · have hM : foldMax t bs (p :: rest) = foldMax t bs rest := by
        rw [foldMax_cons, qmax_eq_left (le_of_not_lt hlt)]
      rw [if_neg hlt, ih, hM]
      by_cases h2 : bs < foldMax t bs rest
      · rw [if_pos h2, if_pos h2, List.find?_cons_of_neg]
        simp only [decide_eq_true_eq]
        have hpb : matchScore t p ≤ bs := le_of_not_lt hlt
        exact not_le_of_lt (lt_of_le_of_lt hpb h2)
      · rw [if_neg h2, if_neg h2]

theorem mem_le_foldMax (t : String) :
    ∀ (ps : List Provider) (bs : ℚ) (p : Provider), p ∈ ps →
      matchScore t p ≤ foldMax t bs ps := by
  intro ps
  induction ps with
  | nil => intro bs p hp; cases hp
  | cons q rest ih =>
    intro bs p hp
    rw [foldMax_cons]
    rcases List.mem_cons.mp hp with hcase | hcase
    · subst hcase
      exact le_trans (le_qmax_right bs (matchScore t p))
        (seed_le_foldMax t rest (qmax bs (matchScore t p)))
    · exact ih (qmax bs (matchScore t q)) p hcase

theorem foldMax_attained (t : String) :
    ∀ (ps : List Provider) (bs : ℚ),
      foldMax t bs ps = bs ∨ ∃ p ∈ ps, foldMax t bs ps = matchScore t p := by
  intro ps
  induction ps with
  | nil => intro bs; left; rw [foldMax_nil]
  | cons p rest ih =>
    intro bs
    rw [foldMax_cons]
    rcases ih (qmax bs (matchScore t p)) with h | ⟨q, hq, hval⟩
    · rw [h]
      unfold qmax
      by_cases hle : bs ≤ matchScore t p
      · rw [if_pos hle]
        exact Or.inr ⟨p, List.mem_cons_self _ _, rfl⟩
      · rw [if_neg hle]
        exact Or.inl rfl
    · exact Or.inr ⟨q, List.mem_cons_of_mem _ hq, hval⟩

theorem find_max_isSome (t : String) (ps : List Provider) (h : 0 < foldMax t 0 ps) :
    ∃ p, ps.find? (fun q => decide (foldMax t 0 ps ≤ matchScore t q)) = some p := by
  rcases foldMax_attained t ps 0 with h0 | ⟨q, hq, hval⟩
  · rw [h0] at h
    exact absurd h (lt_irrefl 0)
  · cases hfind : ps.find? (fun q => decide (foldMax t 0 ps ≤ matchScore t q)) with
    | some p => exact ⟨p, rfl⟩
    | none =>
      exfalso
      exact List.find?_eq_none.mp hfind q hq (decide_eq_true (le_of_eq hval))

/-- Claim C1 counterexample: the score the matcher computes for the
ProPublica name a against the DDS candidate ab is 23/20, which exceeds 1, so
the similarity score used by the matcher is not always in the interval
[0, 1]: the containment boost divides the normalized DDS length by the
normalized ProPublica length, which here is 2. -/
theorem thm_c1_counterexample :
    matchScore "a" ⟨"ab", "u"⟩ = 23/20 ∧ ¬(matchScore "a" ⟨"ab", "u"⟩ ≤ 1) := by
  constructor
  · with_unfolding_all rfl
  · intro hle
    rw [show matchScore "a" ⟨"ab", "u"⟩ = 23/20 by with_unfolding_all rfl] at hle
    norm_num at hle

theorem boost_bounds (x : ℚ) (dn pn : Nat) (hx0 : 0 ≤ x) (hx1 : x ≤ 1) :
    0 ≤ qmax x (3/4 + ((dn : ℚ) / ((Nat.max pn 1 : Nat) : ℚ)) * (1/5)) ∧
    (dn ≤ pn → qmax x (3/4 + ((dn : ℚ) / ((Nat.max pn 1 : Nat) : ℚ)) * (1/5)) ≤ 1) := by
  have hden : (0:ℚ) < ((Nat.max pn 1 : Nat) : ℚ) := by
    have h1 : (0:Nat) < Nat.max pn 1 := lt_of_lt_of_le Nat.zero_lt_one (Nat.le_max_right pn 1)
    exact_mod_cast h1
  constructor
  · exact le_trans hx0 (le_qmax_left _ _)
  · intro hle
    apply qmax_le hx1
    have hfrac : ((dn : ℚ) / ((Nat.max pn 1 : Nat) : ℚ)) ≤ 1 := by
      rw [div_le_one hden]
      have h2 : dn ≤ Nat.max pn 1 := le_trans hle (Nat.le_max_left pn 1)
      exact_mod_cast h2
    have hnn : (0:ℚ) ≤ ((dn : ℚ) / ((Nat.max pn 1 : Nat) : ℚ)) := by positivity
    linarith

/-- Claim C1 amended: the matcher's similarity score is always nonnegative,
and it is at most 1 whenever the normalized DDS candidate name is no longer
than the normalized ProPublica target name; with a strictly longer normalized
candidate contained in (or containing) the target it can exceed 1. -/
theorem thm_c1_amended (t : String) (p : Provider) :
    0 ≤ matchScore t p ∧
    ((normalize_org_name p.name).data.length ≤ (normalize_org_name t).data.length →
      matchScore t p ≤ 1) := by
  have hbase0 : 0 ≤ calculate_similarity t p.name := ratioL_nonneg _ _
  have hbase1 : calculate_similarity t p.name ≤ 1 := ratioL_le_one _ _
  simp only [matchScore]
  split
  · have hb := boost_bounds (calculate_similarity t p.name)
      (normalize_org_name p.name).data.length (normalize_org_name t).data.length hbase0 hbase1
    exact ⟨hb.1, hb.2⟩
  · exact ⟨hbase0, fun _ => hbase1⟩

theorem thm_c1_amended_witness :
    0 ≤ matchScore "abc" ⟨"abc", "u"⟩ ∧ matchScore "abc" ⟨"abc", "u"⟩ ≤ 1 := by
  have h := thm_c1_amended "abc" ⟨"abc", "u"⟩
  exact ⟨h.1, h.2 (by decide)⟩

/-- Claim C2 counterexample: calculate_similarity returns 1 on the pair ABC
and abc although the SequenceMatcher ratio of the raw, unnormalized strings
is 0, so the base fuzzy ratio is not computed over the raw input strings: the
code normalizes both inputs before taking the ratio. -/
theorem thm_c2_counterexample :
    calculate_similarity "ABC" "abc" = 1 ∧ ratioL "ABC".data "abc".data = 0 := by
  constructor
  · with_unfolding_all rfl
  · with_unfolding_all rfl

/-- Claim C2 amended: both the base fuzzy ratio and the containment boost
operate on the normalized strings: the similarity is a function of the
normalized forms alone, so raw inputs with equal normalizations get equal
similarities. -/
theorem thm_c2_amended (a a' b b' : String)
    (ha : normalize_org_name a = normalize_org_name a')
    (hb : normalize_org_name b = normalize_org_name b') :
    calculate_similarity a b = calculate_similarity a' b' := by
  unfold calculate_similarity
  rw [ha, hb]

theorem thm_c2_amended_witness :
    normalize_org_name "A.B,C!" = normalize_org_name "abc" ∧
    calculate_similarity "A.B,C!" "xyz" = calculate_similarity "abc" "xyz" := by
  refine ⟨by decide, thm_c2_amended "A.B,C!" "abc" "xyz" "xyz" (by decide) rfl⟩

/-- Claim C5 counterexample: with target ab, the single candidate xy of score
0, and threshold 0, the maximum score 0 reaches the threshold and the first
candidate attaining it exists, but instead of returning that candidate the
code raises TypeError: the loop replaces its initial None best match only on
a strictly positive score, and the success branch subscripts the still-None
best match in its log call. -/
theorem thm_c5_counterexample :
    match_to_dds_provider "ab" [⟨"xy", "u"⟩] 0 = Except.error () ∧
    maxScore "ab" [⟨"xy", "u"⟩] = 0 ∧
    [(⟨"xy", "u"⟩ : Provider)].find?
      (fun p => decide (maxScore "ab" [⟨"xy", "u"⟩] ≤ matchScore "ab" p)) =
      some ⟨"xy", "u"⟩ := by
  refine ⟨?_, ?_, ?_⟩ <;> with_unfolding_all rfl

/-- Claim C5 amended: match_to_dds_provider returns the first candidate in
input order attaining the maximum score exactly when the maximum both reaches
the threshold and is strictly positive; it raises TypeError (the success
branch subscripts the still-None best match in its log call) when the maximum
reaches the threshold but no candidate scored strictly positive, which
happens exactly when the threshold is at most 0 and every score is 0
(including the empty list); and it returns none when the maximum is below the
threshold. Ties are broken by the strict comparison, so the first candidate
attaining the maximum wins. -/
theorem thm_c5_amended (t : String) (ps : List Provider) (threshold : ℚ) :
    match_to_dds_provider t ps threshold =
      if threshold ≤ maxScore t ps then
        if 0 < maxScore t ps then
          Except.ok (ps.find? (fun p => decide (maxScore t ps ≤ matchScore t p)))
        else Except.error ()
      else Except.ok none := by
  unfold match_to_dds_provider maxScore
  rw [matchLoop_snd t ps none 0, matchLoop_fst t ps none 0]
  by_cases h1 : threshold ≤ foldMax t 0 ps
  · rw [if_pos h1, if_pos h1]
    by_cases h2 : (0:ℚ) < foldMax t 0 ps
    · rw [if_pos h2, if_pos h2]
      obtain ⟨p, hp⟩ := find_max_isSome t ps h2
      rw [hp]
    · rw [if_neg h2, if_neg h2]
  · rw [if_neg h1, if_neg h1]

/-- Claim C3, code bug: on the repository's own URL shape the emitted
record's fallback name keeps the period-pdf tail, title-cased, because the
substitution pattern is written with a doubled backslash in a raw string and
so requires a literal backslash in the segment; the spec's described
derivation (second conjunct, inferNameFromUrlSpec) yields the name with the
trailing period-pdf stripped. -/
theorem thm_c3_code_bug :
    parse_providers_from_town_pdf
        ["https://portal.ct.gov/-/media/DDS/provider_town/acme.pdf"] "Hartford" =
      [⟨"Acme.Pdf", "https://portal.ct.gov/-/media/DDS/provider_town/acme.pdf"⟩] ∧
    inferNameFromUrl "https://portal.ct.gov/-/media/DDS/provider_town/acme.pdf" = "Acme.Pdf" ∧
    inferNameFromUrlSpec "https://portal.ct.gov/-/media/DDS/provider_town/acme.pdf" = "Acme" := by
  exact ⟨by decide, by decide, by decide⟩

theorem appendToLastName_map_url :
    ∀ (ps : List Provider) (line : String),
      (appendToLastName ps line).map Provider.url = ps.map Provider.url := by
  intro ps
  induction ps with
  | nil => intro line; rfl
  | cons p rest ih =>
    intro line
    cases rest with
    | nil => rfl
    | cons q rest2 =>
      rw [appendToLastName, List.map_cons, ih]
      simp

theorem appendToLastName_length :
    ∀ (ps : List Provider) (line : String),
      (appendToLastName ps line).length = ps.length := by
  intro ps
  induction ps with
  | nil => intro line; rfl
  | cons p rest ih =>
    intro line
    cases rest with
    | nil => rfl
    | cons q rest2 =>
      rw [appendToLastName, List.length_cons, ih]
      simp

theorem appendToLastName_snoc :
    ∀ (ps : List Provider) (p : Provider) (line : String),
      appendToLastName (ps ++ [p]) line = ps ++ [⟨stripS (p.name ++ " " ++ line), p.url⟩] := by
  intro ps
  induction ps with
  | nil => intro p line; rfl
  | cons q rest ih =>
    intro p line
    cases rest with
    | nil => rfl
    | cons r rest2 =>
      rw [List.cons_append, List.cons_append, appendToLastName,
        ← List.cons_append, ih]
      simp

/-- Claim C9: once a provider has been emitted, a line whose stripped text
starts with an opening parenthesis is folded into the most recently emitted
record's name (appended with a separating space and stripped), it produces no
new record, the emitted urls are unchanged, and the seen-url set and the
carried candidate name stay as they were, even when the line contains a new
PDF URL. -/
theorem thm_c9 (town : String) (st : ParseState) (line : String)
    (h : contLineCond st line = true) :
    parseStep town st line = ⟨appendToLastName st.providers line, st.seen_urls, st.last_name⟩ ∧
    (appendToLastName st.providers line).map Provider.url = st.providers.map Provider.url ∧
    (appendToLastName st.providers line).length = st.providers.length ∧
    (∀ (ps : List Provider) (p : Provider),
      appendToLastName (ps ++ [p]) line = ps ++ [⟨stripS (p.name ++ " " ++ line), p.url⟩]) := by
  refine ⟨?_, appendToLastName_map_url st.providers line,
    appendToLastName_length st.providers line, fun ps p => appendToLastName_snoc ps p line⟩
  unfold parseStep
  rw [if_pos h]

theorem thm_c9_witness :
    contLineCond ⟨[⟨"Acme", "http://a/x.pdf"⟩], ["http://a/x.pdf"], none⟩
        "(see http://a/y.pdf" = true ∧
    parseStep "T" ⟨[⟨"Acme", "http://a/x.pdf"⟩], ["http://a/x.pdf"], none⟩
        "(see http://a/y.pdf" =
      ⟨[⟨"Acme (see http://a/y.pdf", "http://a/x.pdf"⟩], ["http://a/x.pdf"], none⟩ := by
  have h := thm_c9 "T" ⟨[⟨"Acme", "http://a/x.pdf"⟩], ["http://a/x.pdf"], none⟩
    "(see http://a/y.pdf" (by decide)
  refine ⟨by decide, ?_⟩
  rw [h.1]
  decide

/-- Claim C10: when a link-bearing line's record name falls back to the
URL-derived name because neither the text before the URL nor the carried
candidate passes the name-candidate test, the carried candidate name keeps
its previous value and the emitted record carries the URL-inferred name: a
URL-derived name is never installed as the candidate for later lines. -/
theorem thm_c10 (town : String) (st : ParseState) (line : String) (i n : Nat)
    (hcont : contLineCond st line = false)
    (hurl : searchURL line.data = some (i, n))
    (hseen : urlAt line i n ∉ st.seen_urls)
    (hnp : isCandidateName (nameBefore line i) town = false)
    (hln : ∀ s, st.last_name = some s → isCandidateName s town = false) :
    (parseStep town st line).last_name = st.last_name ∧
    (parseStep town st line).providers =
      st.providers ++ [⟨inferNameFromUrl (urlAt line i n), urlAt line i n⟩] := by
  unfold parseStep
  rw [if_neg (by rw [hcont]; exact Bool.false_ne_true), hurl]
  simp only
  rw [if_neg hseen, if_neg (by rw [hnp]; exact Bool.false_ne_true)]
  cases hlast : st.last_name with
  | none => exact ⟨rfl, rfl⟩
  | some s =>
    dsimp only
    rw [if_neg (by rw [hln s hlast]; exact Bool.false_ne_true)]
    exact ⟨rfl, rfl⟩

theorem thm_c10_witness :
    (parseStep "T" ⟨[], [], none⟩ "12 http://a/b.pdf").last_name = none ∧
    (parseStep "T" ⟨[], [], none⟩ "12 http://a/b.pdf").providers =
      [⟨inferNameFromUrl (urlAt "12 http://a/b.pdf" 3 14), urlAt "12 http://a/b.pdf" 3 14⟩] := by
  have h := thm_c10 "T" ⟨[], [], none⟩ "12 http://a/b.pdf" 3 14 (by decide) (by decide)
    (by decide) (by decide) (fun s hs => nomatch hs)
  exact ⟨h.1, h.2⟩

/-- Claim C6 counterexample: on an empty candidate list with threshold 0 the
matcher does not return none: the initial best score 0.0 reaches the
threshold, so the success branch subscripts the still-None best match in its
log call and raises TypeError, refuting both the no-exception claim and the
empty-list-returns-none claim at this threshold. -/
theorem thm_c6_counterexample :
    match_to_dds_provider "Acme" [] 0 = Except.error () := by
  with_unfolding_all rfl

/-- Claim C6 amended: the normalizer, the similarity and the parser are total
functions (the parser maps no lines to no records, and the normalizer and
similarity are defined on empty strings, two empty inputs giving similarity 1
by the SequenceMatcher convention), and for every strictly positive threshold
the matcher raises no exception on any input and returns none on an empty
candidate list; with a threshold at most 0 and no strictly-positive-scoring
candidate it instead raises TypeError, as the counterexample shows. -/
theorem thm_c6_amended (threshold : ℚ) (hpos : 0 < threshold) :
    (∀ (t : String) (ps : List Provider),
      ∃ v, match_to_dds_provider t ps threshold = Except.ok v) ∧
    (∀ t : String, match_to_dds_provider t [] threshold = Except.ok none) ∧
    (∀ town : String, parse_providers_from_town_pdf [] town = []) ∧
    normalize_org_name "" = "" ∧ calculate_similarity "" "" = 1 := by
  refine ⟨?_, ?_, fun town => rfl, rfl, by with_unfolding_all rfl⟩
  · intro t ps
    unfold match_to_dds_provider
    rw [matchLoop_snd t ps none 0, matchLoop_fst t ps none 0]
    by_cases h1 : threshold ≤ foldMax t 0 ps
    · have h2 : (0:ℚ) < foldMax t 0 ps := lt_of_lt_of_le hpos h1
      rw [if_pos h1, if_pos h2]
      obtain ⟨p, hp⟩ := find_max_isSome t ps h2
      rw [hp]
      exact ⟨some p, rfl⟩
    · rw [if_neg h1]
      exact ⟨none, rfl⟩
  · intro t
    unfold match_to_dds_provider
    rw [matchLoop_nil]
    dsimp only
    rw [if_neg (not_le.mpr hpos)]

theorem thm_c6_amended_witness :
    (0:ℚ) < 3/5 ∧
    match_to_dds_provider "Acme" [] (3/5) = Except.ok none ∧
    parse_providers_from_town_pdf [] "Andover" = [] := by
  have H := thm_c6_amended (3/5) (by norm_num)
  exact ⟨by norm_num, H.2.1 "Acme", H.2.2.1 "Andover"⟩


theorem toNat_ofNat_valid {n : Nat} (h : n < 55296) : (Char.ofNat n).toNat = n := by
  rw [Char.ofNat, dif_pos (Or.inl h)]
  rfl

theorem char_toLower_toLower (c : Char) : c.toLower.toLower = c.toLower := by
  by_cases h : c.toNat ≥ 65 ∧ c.toNat ≤ 90
  · have h1 : c.toLower = Char.ofNat (c.toNat + 32) := by
      unfold Char.toLower
      rw [if_pos h]
    have h2 : (Char.ofNat (c.toNat + 32)).toNat = c.toNat + 32 := toNat_ofNat_valid (by omega)
    rw [h1]
    unfold Char.toLower
    rw [if_neg (by rw [h2]; omega)]
  · have h1 : c.toLower = c := by
      unfold Char.toLower
      rw [if_neg h]
    rw [h1, h1]

theorem subScanGo_sublist (tok : List Char) (d : Bool) :
    ∀ (l : List Char) (skip : Nat) (pw : Bool), List.Sublist (subScanGo tok d skip pw l) l := by
  intro l
  induction l with
  | nil => intro skip pw; rw [subScanGo]
  | cons c rest ih =>
    intro skip pw
    rw [subScanGo]
    by_cases hs : skip = 0
    · rw [if_pos hs]
      cases h : (if pw then none else tryTokLen tok d (c :: rest)) with
      | some n => exact List.Sublist.cons _ (ih (n - 1) (isWordChar c))
      | none => exact List.Sublist.cons₂ _ (ih 0 (isWordChar c))
    · rw [if_neg hs]
      exact List.Sublist.cons _ (ih (skip - 1) (isWordChar c))

theorem subAll_sublist (tok : String) (d : Bool) (l : List Char) :
    List.Sublist (subAll tok d l) l :=
  subScanGo_sublist tok.data d l 0 false

theorem removeSuffixesL_sublist (l : List Char) : List.Sublist (removeSuffixesL l) l := by
  unfold removeSuffixesL
  exact ((subAll_sublist _ _ _).trans ((subAll_sublist _ _ _).trans
    ((subAll_sublist _ _ _).trans ((subAll_sublist _ _ _).trans
      ((subAll_sublist _ _ _).trans ((subAll_sublist _ _ _).trans
        ((subAll_sublist _ _ _).trans (subAll_sublist _ _ _))))))))

theorem mem_of_mem_stripL {c : Char} {l : List Char} (h : c ∈ stripL l) : c ∈ l := by
  unfold stripL at h
  rw [List.mem_reverse] at h
  have h2 : c ∈ (l.dropWhile isSpaceCh).reverse :=
    List.Sublist.mem h (List.dropWhile_sublist _)
  rw [List.mem_reverse] at h2
  exact List.Sublist.mem h2 (List.dropWhile_sublist _)

theorem mem_dropWhile_of_mem {c : Char} :
    ∀ {l : List Char}, c ∈ l → isSpaceCh c = false → c ∈ l.dropWhile isSpaceCh := by
  intro l
  induction l with
  | nil => intro h _; cases h
  | cons d rest ih =>
    intro h hns
    rw [List.dropWhile_cons]
    by_cases hd : isSpaceCh d = true
    · rw [if_pos hd]
      apply ih ?_ hns
      rcases List.mem_cons.mp h with rfl | hm
      · exact absurd hns (by simp [hd])
      · exact hm
    · rw [if_neg hd]
      exact h

theorem mem_stripL_of_mem {c : Char} {l : List Char} (hc : c ∈ l) (hns : isSpaceCh c = false) :
    c ∈ stripL l := by
  unfold stripL
  rw [List.mem_reverse]
  apply mem_dropWhile_of_mem ?_ hns
  rw [List.mem_reverse]
  exact mem_dropWhile_of_mem hc hns

theorem mem_collapseWS {c : Char} :
    ∀ (p : Bool) (l : List Char), c ∈ collapseWS p l →
      c = ' ' ∨ (c ∈ l ∧ isSpaceCh c = false) := by
  intro p l
  induction l generalizing p with
  | nil => intro h; rw [collapseWS] at h; cases h
  | cons d rest ih =>
    intro h
    rw [collapseWS] at h
    by_cases hd : isSpaceCh d = true
    · rw [if_pos hd] at h
      cases p with
      | true =>
        rw [if_pos rfl] at h
        rcases ih true h with h1 | h2
        · exact Or.inl h1
        · exact Or.inr ⟨List.mem_cons_of_mem _ h2.1, h2.2⟩
      | false =>
        rw [if_neg (by simp)] at h
        rcases List.mem_cons.mp h with rfl | hm
        · exact Or.inl rfl
        · rcases ih true hm with h1 | h2
          · exact Or.inl h1
          · exact Or.inr ⟨List.mem_cons_of_mem _ h2.1, h2.2⟩
    · rw [if_neg hd] at h
      rcases List.mem_cons.mp h with rfl | hm
      · exact Or.inr ⟨List.mem_cons_self _ _, by simpa using hd⟩
      · rcases ih false hm with h1 | h2
        · exact Or.inl h1
        · exact Or.inr ⟨List.mem_cons_of_mem _ h2.1, h2.2⟩

theorem collapse_headNS :
    ∀ (l : List Char) (c : Char),
      (collapseWS true l).head? = some c → isSpaceCh c = false := by
  intro l
  induction l with
  | nil => intro c h; rw [collapseWS] at h; cases h
  | cons d rest ih =>
    intro c h
    rw [collapseWS] at h
    by_cases hd : isSpaceCh d = true
    · rw [if_pos hd, if_pos rfl] at h
      exact ih c h
    · rw [if_neg hd, List.head?_cons] at h
      injection h with h2
      subst h2
      simpa using hd

theorem noDblSpace_collapse : ∀ (p : Bool) (l : List Char), noDblSpace (collapseWS p l) := by
  intro p l
  induction l generalizing p with
  | nil => rw [collapseWS]; exact List.chain'_nil
  | cons d rest ih =>
    rw [collapseWS]
    by_cases hd : isSpaceCh d = true
    · rw [if_pos hd]
      cases p with
      | true => rw [if_pos rfl]; exact ih true
      | false =>
        rw [if_neg (by simp)]
        unfold noDblSpace
        rw [List.chain'_cons']
        refine ⟨?_, ih true⟩
        intro b hb hcontra
        exact absurd hcontra.2 (by simp [collapse_headNS rest b hb])
    · rw [if_neg hd]
      unfold noDblSpace
      rw [List.chain'_cons']
      refine ⟨?_, ih false⟩
      intro b hb hcontra
      exact hd hcontra.1

theorem noDblSpace_dropWhile :
    ∀ (l : List Char), noDblSpace l → noDblSpace (l.dropWhile isSpaceCh) := by
  intro l
  induction l with
  | nil => intro h; exact h
  | cons d rest ih =>
    intro h
    rw [List.dropWhile_cons]
    by_cases hd : isSpaceCh d = true
    · rw [if_pos hd]
      exact ih (List.Chain'.tail h)
    · rw [if_neg hd]
      exact h

theorem noDblSpace_reverse (l : List Char) (h : noDblSpace l) : noDblSpace l.reverse := by
  unfold noDblSpace
  rw [List.chain'_reverse]
  exact h.imp (fun a b hab hc => hab ⟨hc.2, hc.1⟩)

theorem noDblSpace_stripL (l : List Char) (h : noDblSpace l) : noDblSpace (stripL l) := by
  unfold stripL
  exact noDblSpace_reverse _ (noDblSpace_dropWhile _ (noDblSpace_reverse _
    (noDblSpace_dropWhile _ h)))

theorem headNS_dropWhile :
    ∀ (l : List Char) (c : Char),
      (l.dropWhile isSpaceCh).head? = some c → isSpaceCh c = false := by
  intro l
  induction l with
  | nil => intro c h; cases h
  | cons d rest ih =>
    intro c h
    rw [List.dropWhile_cons] at h
    by_cases hd : isSpaceCh d = true
    · rw [if_pos hd] at h
      exact ih c h
    · rw [if_neg hd, List.head?_cons] at h
      injection h with h2
      subst h2
      simpa using hd

theorem stripL_headNS (l : List Char) (c : Char) (h : (stripL l).head? = some c) :
    isSpaceCh c = false := by
  unfold stripL at h
  obtain ⟨t, ht⟩ := List.dropWhile_suffix (l := (l.dropWhile isSpaceCh).reverse) isSpaceCh
  have hA : l.dropWhile isSpaceCh =
      ((l.dropWhile isSpaceCh).reverse.dropWhile isSpaceCh).reverse ++ t.reverse := by
    rw [← List.reverse_append, ht, List.reverse_reverse]
  cases hBr : ((l.dropWhile isSpaceCh).reverse.dropWhile isSpaceCh).reverse with
  | nil => rw [hBr] at h; cases h
  | cons x u =>
    rw [hBr, List.head?_cons] at h
    injection h with h2
    rw [← h2]
    apply headNS_dropWhile l x
    rw [hA, hBr, List.cons_append, List.head?_cons]

theorem stripL_lastNS (l : List Char) (c : Char) (h : (stripL l).reverse.head? = some c) :
    isSpaceCh c = false := by
  unfold stripL at h
  rw [List.reverse_reverse] at h
  exact headNS_dropWhile _ c h

theorem dropWhile_eq_self_of_headNS (l : List Char)
    (h : ∀ c, l.head? = some c → isSpaceCh c = false) : l.dropWhile isSpaceCh = l := by
  cases l with
  | nil => rfl
  | cons d rest =>
    have hd : isSpaceCh d = false := h d rfl
    rw [List.dropWhile_cons, if_neg (by simp [hd])]

theorem stripL_eq_self (l : List Char)
    (h1 : ∀ c, l.head? = some c → isSpaceCh c = false)
    (h2 : ∀ c, l.reverse.head? = some c → isSpaceCh c = false) : stripL l = l := by
  unfold stripL
  rw [dropWhile_eq_self_of_headNS l h1, dropWhile_eq_self_of_headNS l.reverse h2,
    List.reverse_reverse]

theorem collapse_eq_self :
    ∀ (l : List Char), (∀ c ∈ l, isSpaceCh c = true → c = ' ') → noDblSpace l →
      (collapseWS false l = l ∧
        ((∀ c, l.head? = some c → isSpaceCh c = false) → collapseWS true l = l)) := by
  intro l
  induction l with
  | nil => intro _ _; exact ⟨rfl, fun _ => rfl⟩
  | cons d rest ih =>
    intro hsb hch
    have hsb2 : ∀ c ∈ rest, isSpaceCh c = true → c = ' ' :=
      fun c hc => hsb c (List.mem_cons_of_mem _ hc)
    have hch2 : noDblSpace rest := List.Chain'.tail hch
    have IH := ih hsb2 hch2
    constructor
    · rw [collapseWS]
      by_cases hd : isSpaceCh d = true
      · rw [if_pos hd, if_neg (by simp)]
        have hd2 : d = ' ' := hsb d (List.mem_cons_self _ _) hd
        have hrest : ∀ c, rest.head? = some c → isSpaceCh c = false := by
          intro c hc
          have hr := (List.chain'_cons'.mp hch).1 c hc
          cases hcs : isSpaceCh c with
          | false => rfl
          | true => exact absurd ⟨hd, hcs⟩ hr
        rw [IH.2 hrest, hd2]
      · rw [if_neg hd, IH.1]
    · intro hhd
      have hd : isSpaceCh d = false := hhd d rfl
      rw [collapseWS, if_neg (by simp [hd]), IH.1]

theorem lowerL_chars (l : List Char) : ∀ c ∈ lowerL l, Char.toLower c = c := by
  intro c hc
  rw [lowerL, List.mem_map] at hc
  obtain ⟨c0, _, rfl⟩ := hc
  exact char_toLower_toLower c0

theorem normalizeL_chars (l : List Char) :
    ∀ c ∈ normalizeL l,
      Char.toLower c = c ∧ (isWordChar c || isSpaceCh c) = true ∧
        (isSpaceCh c = true → c = ' ') := by
  intro c hc
  unfold normalizeL at hc
  have hc2 := mem_of_mem_stripL hc
  rcases mem_collapseWS false _ hc2 with rfl | hmem
  · exact ⟨rfl, by decide, fun _ => rfl⟩
  · obtain ⟨hcf, hns⟩ := hmem
    rw [filterWS, List.mem_filter] at hcf
    obtain ⟨hcr, hprop⟩ := hcf
    have hclower : c ∈ lowerL l := List.Sublist.mem hcr (removeSuffixesL_sublist _)
    refine ⟨lowerL_chars l c hclower, hprop, ?_⟩
    intro hsp
    exact absurd hsp (by simp [hns])

theorem lowerL_eq_self : ∀ (l : List Char), (∀ c ∈ l, Char.toLower c = c) → lowerL l = l := by
  intro l
  induction l with
  | nil => intro _; rfl
  | cons c rest ih =>
    intro h
    rw [lowerL, List.map_cons, h c (List.mem_cons_self _ _)]
    have h2 := ih (fun x hx => h x (List.mem_cons_of_mem _ hx))
    rw [lowerL] at h2
    rw [h2]

theorem normalizeL_fixed (l : List Char)
    (h : removeSuffixesL (normalizeL l) = normalizeL l) :
    normalizeL (normalizeL l) = normalizeL l := by
  have hchars := normalizeL_chars l
  have hlower : lowerL (normalizeL l) = normalizeL l :=
    lowerL_eq_self _ (fun c hc => (hchars c hc).1)
  have hfilter : filterWS (normalizeL l) = normalizeL l := by
    unfold filterWS
    exact List.filter_eq_self.mpr (fun c hc => (hchars c hc).2.1)
  have hsb : ∀ c ∈ normalizeL l, isSpaceCh c = true → c = ' ' :=
    fun c hc => (hchars c hc).2.2
  have hch : noDblSpace (normalizeL l) := by
    unfold normalizeL
    exact noDblSpace_stripL _ (noDblSpace_collapse false _)
  have hh1 : ∀ c, (normalizeL l).head? = some c → isSpaceCh c = false := by
    intro c hc
    unfold normalizeL at hc
    exact stripL_headNS _ c hc
  have hh2 : ∀ c, (normalizeL l).reverse.head? = some c → isSpaceCh c = false := by
    intro c hc
    unfold normalizeL at hc
    exact stripL_lastNS _ c hc
  have hcol : collapseWS false (normalizeL l) = normalizeL l :=
    (collapse_eq_self _ hsb hch).1
  have hstr : stripL (normalizeL l) = normalizeL l := stripL_eq_self _ hh1 hh2
  show stripL (collapseWS false (filterWS (removeSuffixesL (lowerL (normalizeL l))))) =
    normalizeL l
  rw [hlower, h, hfilter, hcol, hstr]

/-- Claim C4 counterexample: normalize_org_name is not idempotent: stripping
the period of in.c uncovers the suffix token inc, which a second application
removes entirely. -/
theorem thm_c4_counterexample :
    normalize_org_name "in.c" = "inc" ∧
    normalize_org_name (normalize_org_name "in.c") = "" ∧
    normalize_org_name (normalize_org_name "in.c") ≠ normalize_org_name "in.c" := by
  exact ⟨by decide, by decide, by decide⟩

/-- Claim C4 amended: normalize_org_name is idempotent exactly on the inputs
whose normalized form the suffix-removal pass leaves unchanged (punctuation
stripping can uncover new suffix tokens, as in in.c, so full idempotence
fails); under that condition a second normalization changes nothing. -/
theorem thm_c4_amended (s : String)
    (h : removeSuffixesL (normalize_org_name s).data = (normalize_org_name s).data) :
    normalize_org_name (normalize_org_name s) = normalize_org_name s := by
  have key : normalizeL (normalizeL s.data) = normalizeL s.data := normalizeL_fixed s.data h
  show (⟨normalizeL (normalizeL s.data)⟩ : String) = ⟨normalizeL s.data⟩
  rw [key]

theorem thm_c4_amended_witness :
    removeSuffixesL (normalize_org_name "general hospital").data =
      (normalize_org_name "general hospital").data ∧
    normalize_org_name (normalize_org_name "general hospital") =
      normalize_org_name "general hospital" :=
  ⟨by decide, thm_c4_amended "general hospital" (by decide)⟩

theorem leadsWith_iff : ∀ (p l : List Char), leadsWith p l = true ↔ ∃ t, l = p ++ t := by
  intro p
  induction p with
  | nil =>
    intro l
    rw [leadsWith]
    simp
  | cons a as ih =>
    intro l
    cases l with
    | nil =>
      rw [leadsWith]
      constructor
      · intro h; cases h
      · rintro ⟨t, ht⟩; cases ht
    | cons b bs =>
      rw [leadsWith]
      constructor
      · intro h
        rw [Bool.and_eq_true] at h
        obtain ⟨hab, hrest⟩ := h
        have hab2 : a = b := of_decide_eq_true hab
        obtain ⟨t, ht⟩ := (ih bs).mp hrest
        exact ⟨t, by rw [List.cons_append, ← hab2, ht]⟩
      · rintro ⟨t, ht⟩
        rw [List.cons_append] at ht
        injection ht with h1 h2
        rw [Bool.and_eq_true]
        exact ⟨decide_eq_true (by rw [h1]), (ih bs).mpr ⟨t, h2⟩⟩

theorem subScanGo_allword_true (tok : List Char) (d : Bool) :
    ∀ (l : List Char), (∀ c ∈ l, isWordChar c = true) → subScanGo tok d 0 true l = l := by
  intro l
  induction l with
  | nil => intro _; rw [subScanGo]
  | cons c rest ih =>
    intro h
    show c :: subScanGo tok d 0 (isWordChar c) rest = c :: rest
    rw [h c (List.mem_cons_self _ _)]
    rw [ih (fun x hx => h x (List.mem_cons_of_mem _ hx))]

theorem tryTokLen_allword_none (tok : List Char) (d : Bool) (htok : tok ≠ [])
    (l : List Char) (hall : ∀ c ∈ l, isWordChar c = true) (hne : l ≠ tok) :
    tryTokLen tok d l = none := by
  unfold tryTokLen
  rw [if_neg htok]
  by_cases hlw : leadsWith tok l = true
  · rw [if_pos hlw]
    obtain ⟨t, ht⟩ := (leadsWith_iff tok l).mp hlw
    rw [ht, List.drop_left]
    cases t with
    | nil => exact absurd (by rw [ht, List.append_nil]) hne
    | cons x ts =>
      have hx : isWordChar x = true := by
        apply hall x
        rw [ht]
        exact List.mem_append_of_mem_right _ (List.mem_cons_self _ _)
      split
      · rename_i rest2 heq
        injection heq with e1 e2
        rw [e1] at hx
        exact absurd hx (by decide)
      · rename_i hcne heq
        injection heq with e1 e2
        rw [← e1]
        rw [if_pos hx]
      · rename_i heq
        exact absurd heq (List.cons_ne_nil x ts)
  · rw [if_neg hlw]

theorem subScanGo_allword_false (tok : List Char) (d : Bool) (htok : tok ≠ [])
    (l : List Char) (hall : ∀ c ∈ l, isWordChar c = true) (hne : l ≠ tok) :
    subScanGo tok d 0 false l = l := by
  cases l with
  | nil => rw [subScanGo]
  | cons c rest =>
    have htry : tryTokLen tok d (c :: rest) = none :=
      tryTokLen_allword_none tok d htok (c :: rest) hall hne
    show (match (if false = true then none else tryTokLen tok d (c :: rest)) with
      | some n => subScanGo tok d (n - 1) (isWordChar c) rest
      | none => c :: subScanGo tok d 0 (isWordChar c) rest) = c :: rest
    rw [htry]
    show c :: subScanGo tok d 0 (isWordChar c) rest = c :: rest
    rw [hall c (List.mem_cons_self _ _)]
    rw [subScanGo_allword_true tok d rest (fun x hx => hall x (List.mem_cons_of_mem _ hx))]

/-- Claim C8: the normalizer removes suffix tokens only as whole words: the
concrete instance keeps the inc inside Incredible while removing the whole
word Corp, and in general the suffix-removal pass leaves any single word
(a nonempty all-word-character string) unchanged unless the word is itself
one of the eight tokens. -/
theorem thm_c8 :
    normalize_org_name "Incredible Corp" = "incredible" ∧
    (∀ w : List Char, (∀ c ∈ w, isWordChar c = true) → w ∉ suffixTokenChars →
      removeSuffixesL w = w) := by
  refine ⟨by decide, ?_⟩
  intro w hall hmem
  have hne : ∀ tok ∈ suffixTokenChars, w ≠ tok := fun tok htok heq => hmem (heq ▸ htok)
  have step : ∀ (tokS : String) (d : Bool), tokS.data ≠ [] → w ≠ tokS.data →
      subAll tokS d w = w := by
    intro tokS d h1 h2
    unfold subAll
    exact subScanGo_allword_false tokS.data d h1 w hall h2
  simp only [removeSuffixesL]
  rw [step "inc" true (by decide) (hne _ (by decide)),
    step "incorporated" false (by decide) (hne _ (by decide)),
    step "llc" false (by decide) (hne _ (by decide)),
    step "corp" true (by decide) (hne _ (by decide)),
    step "corporation" false (by decide) (hne _ (by decide)),
    step "ltd" true (by decide) (hne _ (by decide)),
    step "co" true (by decide) (hne _ (by decide)),
    step "foundation" false (by decide) (hne _ (by decide))]

theorem thm_c8_witness :
    removeSuffixesL "incredible".data = "incredible".data ∧
    normalize_org_name "Incredible Corp" = "incredible" :=
  ⟨thm_c8.2 "incredible".data (by decide) (by decide), thm_c8.1⟩

theorem ciLeads_length : ∀ (p l : List Char), ciLeads p l = true → p.length ≤ l.length := by
  intro p
  induction p with
  | nil => intro l _; simp
  | cons a as ih =>
    intro l h
    cases l with
    | nil => rw [ciLeads] at h; cases h
    | cons b bs =>
      rw [ciLeads, Bool.and_eq_true] at h
      have h2 := ih bs h.2
      simp only [List.length_cons]
      omega

theorem ciLeads_pdf_shape (rest : List Char) (h : ciLeads ".pdf".data rest = true) :
    ∃ a b c d t, rest = a :: b :: c :: d :: t ∧ d.toLower = 'f' := by
  have hdata : ".pdf".data = ['.', 'p', 'd', 'f'] := rfl
  rw [hdata] at h
  cases rest with
  | nil => rw [ciLeads] at h; cases h
  | cons a r1 =>
    rw [ciLeads, Bool.and_eq_true] at h
    obtain ⟨ha, h⟩ := h
    cases r1 with
    | nil => rw [ciLeads] at h; cases h
    | cons b r2 =>
      rw [ciLeads, Bool.and_eq_true] at h
      obtain ⟨hb, h⟩ := h
      cases r2 with
      | nil => rw [ciLeads] at h; cases h
      | cons c2 r3 =>
        rw [ciLeads, Bool.and_eq_true] at h
        obtain ⟨hc2, h⟩ := h
        cases r3 with
        | nil => rw [ciLeads] at h; cases h
        | cons d2 r4 =>
          rw [ciLeads, Bool.and_eq_true] at h
          obtain ⟨hd2, h⟩ := h
          exact ⟨a, b, c2, d2, r4, rfl, of_decide_eq_true hd2⟩

theorem take_add_eq : ∀ (m : Nat) (l : List Char) (n : Nat),
    l.take (m + n) = l.take m ++ (l.drop m).take n := by
  intro m
  induction m with
  | zero => intro l n; simp
  | succ k ih =>
    intro l n
    cases l with
    | nil => simp
    | cons c rest =>
      rw [Nat.succ_add, List.take_succ_cons, List.take_succ_cons, List.drop_succ_cons,
        List.cons_append, ih rest n]

theorem getLast?_cons_ne (c : Char) (X : List Char) (h : X ≠ []) :
    (c :: X).getLast? = X.getLast? := by
  cases X with
  | nil => exact absurd rfl h
  | cons d rest => rw [List.getLast?_cons_cons]

theorem ngPdf_spec : ∀ (l : List Char) (m : Nat), ngPdf l = some m →
    1 ≤ m ∧ m ≤ l.length ∧ ∃ c, (l.take m).getLast? = some c ∧ c.toLower = 'f' := by
  intro l
  induction l with
  | nil => intro m h; rw [ngPdf] at h; cases h
  | cons c rest ih =>
    intro m h
    rw [ngPdf] at h
    by_cases hsp : isSpaceCh c = true
    · rw [if_pos hsp] at h; cases h
    · rw [if_neg hsp] at h
      by_cases hpdf : ciLeads ".pdf".data rest = true
      · rw [if_pos hpdf] at h
        injection h with h5
        subst h5
        obtain ⟨a, b, c2, d2, t, hshape, hf⟩ := ciLeads_pdf_shape rest hpdf
        subst hshape
        refine ⟨by omega, by simp, d2, rfl, hf⟩
      · rw [if_neg hpdf] at h
        cases h2 : ngPdf rest with
        | none => rw [h2] at h; cases h
        | some m2 =>
          rw [h2] at h
          injection h with h3
          subst h3
          obtain ⟨hm1, hm2, c2, hlast, hf⟩ := ih m2 h2
          refine ⟨by omega, by simp only [List.length_cons]; omega, c2, ?_, hf⟩
          rw [List.take_succ_cons, getLast?_cons_ne]
          · exact hlast
          · intro hnil
            rw [List.take_eq_nil_iff] at hnil
            rcases hnil with h0 | hrest
            · omega
            · rw [hrest] at h2
              rw [ngPdf] at h2
              cases h2

theorem tryURLAt_spec (L : List Char) (n : Nat) (h : tryURLAt L = some n) :
    1 ≤ n ∧ n ≤ L.length ∧ ∃ c, (L.take n).getLast? = some c ∧ c.toLower = 'f' := by
  unfold tryURLAt at h
  by_cases hhttp : ciLeads "http".data L = true
  · rw [if_pos hhttp] at h
    have hlen4 : 4 ≤ L.length := by
      have h4 := ciLeads_length "http".data L hhttp
      simpa using h4
    cases hd4 : L.drop 4 with
    | nil => rw [hd4] at h; cases h
    | cons c r2 =>
      rw [hd4] at h
      dsimp only at h
      have hlen5 : L.length = 4 + (c :: r2).length := by
        have : (L.drop 4).length = L.length - 4 := List.length_drop 4 L
        rw [hd4] at this
        omega
      by_cases hs : c.toLower = 's'
      · rw [if_pos hs] at h
        by_cases hsep : ciLeads "://".data r2 = true
        · rw [if_pos hsep] at h
          cases hng : ngPdf (r2.drop 3) with
          | none => rw [hng] at h; cases h
          | some m =>
            rw [hng] at h
            injection h with hn
            subst hn
            obtain ⟨hm1, hm2, c2, hlast, hf⟩ := ngPdf_spec _ m hng
            have hr2 : r2.drop 3 = L.drop 8 := by
              have h1 : r2 = L.drop 5 := by
                have h5 : L.drop 5 = (L.drop 4).drop 1 := by
                  rw [List.drop_drop]
                rw [h5, hd4, List.drop_succ_cons, List.drop_zero]
              rw [h1, List.drop_drop]
            have hlend : (r2.drop 3).length = L.length - 8 := by
              rw [hr2, List.length_drop]
            refine ⟨by omega, by omega, c2, ?_, hf⟩
            have hsplit : L.take (m + 8) = L.take 8 ++ (L.drop 8).take m := by
              rw [Nat.add_comm m 8]
              exact take_add_eq 8 L m
            rw [hsplit, List.getLast?_append, ← hr2, hlast]
            rfl
        · rw [if_neg hsep] at h; cases h
      · rw [if_neg hs] at h
        by_cases hsep : ciLeads "://".data (c :: r2) = true
        · rw [if_pos hsep] at h
          cases hng : ngPdf ((c :: r2).drop 3) with
          | none => rw [hng] at h; cases h
          | some m =>
            rw [hng] at h
            injection h with hn
            subst hn
            obtain ⟨hm1, hm2, c2, hlast, hf⟩ := ngPdf_spec _ m hng
            have hcr : (c :: r2).drop 3 = L.drop 7 := by
              rw [← hd4, List.drop_drop]
            have hlend : ((c :: r2).drop 3).length = L.length - 7 := by
              rw [hcr, List.length_drop]
            refine ⟨by omega, by omega, c2, ?_, hf⟩
            have hsplit : L.take (m + 7) = L.take 7 ++ (L.drop 7).take m := by
              rw [Nat.add_comm m 7]
              exact take_add_eq 7 L m
            rw [hsplit, List.getLast?_append, ← hcr, hlast]
            rfl
        · rw [if_neg hsep] at h; cases h
  · rw [if_neg hhttp] at h; cases h

theorem searchURLGo_spec :
    ∀ (l : List Char) (j i n : Nat), searchURLGo j l = some (i, n) →
      ∃ k, i = j + k ∧ tryURLAt (l.drop k) = some n := by
  intro l
  induction l with
  | nil => intro j i n h; rw [searchURLGo] at h; cases h
  | cons c rest ih =>
    intro j i n h
    rw [searchURLGo] at h
    cases htry : tryURLAt (c :: rest) with
    | some m =>
      rw [htry] at h
      injection h with h2
      injection h2 with e1 e2
      subst e1
      subst e2
      exact ⟨0, by omega, by rw [List.drop_zero]; exact htry⟩
    | none =>
      rw [htry] at h
      obtain ⟨k, hik, htry2⟩ := ih (j + 1) i n h
      exact ⟨k + 1, by omega, by rw [List.drop_succ_cons]; exact htry2⟩

theorem searchURL_facts (line : List Char) (i n : Nat) (h : searchURL line = some (i, n)) :
    (line.drop i).take n ≠ [] ∧
    (∀ c ∈ (line.drop i).take n, c ∈ line) ∧
    ∃ c, ((line.drop i).take n).getLast? = some c ∧ c.toLower = 'f' := by
  obtain ⟨k, hik, htry⟩ := searchURLGo_spec line 0 i n h
  have htry2 : tryURLAt (line.drop i) = some n := by
    have hk : k = i := by omega
    rwa [hk] at htry
  obtain ⟨h1, h2, c, hlast, hf⟩ := tryURLAt_spec _ _ htry2
  refine ⟨?_, ?_, c, hlast, hf⟩
  · intro hnil
    rw [List.take_eq_nil_iff] at hnil
    rcases hnil with h0 | hdrop
    · omega
    · rw [hdrop] at h2
      simp at h2
      omega
  · intro x hx
    exact List.Sublist.mem (List.Sublist.mem hx (List.take_sublist _ _)) (List.drop_sublist _ _)

theorem toLowerF_not_space (c : Char) (hf : c.toLower = 'f') : isSpaceCh c = false := by
  cases hsp : isSpaceCh c with
  | false => rfl
  | true =>
    exfalso
    unfold isSpaceCh at hsp
    simp only [Bool.or_eq_true, decide_eq_true_eq] at hsp
    rcases hsp with ((((h | h) | h) | h) | h) | h <;>
      (subst h; exact absurd hf (by decide))

theorem toLowerF_ne (c : Char) (hf : c.toLower = 'f') (x : Char) (hx : x.toLower ≠ 'f') :
    c ≠ x := fun he => hx (he ▸ hf)

theorem lastSegment_subset (l : List Char) : ∀ c ∈ lastSegment l, c ∈ l := by
  intro c hc
  unfold lastSegment at hc
  rw [List.mem_reverse] at hc
  have h2 : c ∈ l.reverse := List.Sublist.mem hc (List.takeWhile_sublist _)
  rwa [List.mem_reverse] at h2

theorem lastSegment_mem_last (l : List Char) (c : Char) (hl : l.getLast? = some c)
    (hc : c ≠ '/') : c ∈ lastSegment l := by
  unfold lastSegment
  rw [List.mem_reverse]
  have hh : l.reverse.head? = some c := by rw [List.head?_reverse]; exact hl
  cases hrev : l.reverse with
  | nil => rw [hrev] at hh; cases hh
  | cons d rest =>
    rw [hrev] at hh
    rw [List.head?_cons] at hh
    injection hh with e
    rw [List.takeWhile_cons, e, if_pos (bne_iff_ne.mpr hc)]
    exact List.mem_cons_self _ _

theorem brokenPdfSub_no_bs (l : List Char) (hbs : ('\\' : Char) ∉ l) : brokenPdfSub l = l := by
  unfold brokenPdfSub
  split
  · rename_i f d p x b rest heq
    rw [if_neg]
    intro hcond
    simp only [Bool.and_eq_true] at hcond
    have hb : b = '\\' := eq_of_beq hcond.2
    apply hbs
    rw [← List.mem_reverse, heq, hb]
    simp
  · rfl

theorem replPP_mem (c : Char) (hc1 : c ≠ '_') (hc2 : c ≠ 'p') :
    ∀ (l : List Char), c ∈ l → c ∈ replPP l := by
  intro l
  induction l using replPP.induct with
  | case1 rest ih =>
    intro h
    rw [replPP]
    apply ih
    rcases List.mem_cons.mp h with rfl | h2
    · exact absurd rfl hc1
    · rcases List.mem_cons.mp h2 with rfl | h3
      · exact absurd rfl hc2
      · rcases List.mem_cons.mp h3 with rfl | h4
        · exact absurd rfl hc2
        · exact h4
  | case2 d rest hno ih =>
    intro h
    rw [replPP]
    · rcases List.mem_cons.mp h with rfl | h2
      · exact List.mem_cons_self _ _
      · exact List.mem_cons_of_mem _ (ih h2)
    · exact hno
  | case3 =>
    intro h
    cases h

theorem swapCh_mem (a b c : Char) (l : List Char) (hc : c ∈ l) (hne : c ≠ a) :
    c ∈ swapCh a b l := by
  unfold swapCh
  have h2 : (if c = a then b else c) ∈ List.map (fun x => if x = a then b else x) l :=
    List.mem_map_of_mem (fun x => if x = a then b else x) hc
  rwa [if_neg hne] at h2

theorem titleGo_length : ∀ (b : Bool) (l : List Char), (titleGo b l).length = l.length := by
  intro b l
  induction l generalizing b with
  | nil => rfl
  | cons c rest ih =>
    rw [titleGo]
    by_cases hc : c.isAlpha = true
    · rw [if_pos hc, List.length_cons, ih true, List.length_cons]
    · rw [if_neg hc, List.length_cons, ih false, List.length_cons]

theorem mk_ne_empty_of_ne_nil (l : List Char) (h : l ≠ []) : (⟨l⟩ : String) ≠ "" := by
  intro heq
  exact h (congrArg String.data heq)

theorem inferNameFromUrl_ne_empty (u : String) (hbs : ('\\' : Char) ∉ u.data)
    (hf : ∃ c, u.data.getLast? = some c ∧ c.toLower = 'f') :
    inferNameFromUrl u ≠ "" := by
  obtain ⟨c, hlast, hcf⟩ := hf
  have hcs : c ∈ lastSegment u.data :=
    lastSegment_mem_last _ c hlast (toLowerF_ne c hcf '/' (by decide))
  have hbseg : ('\\' : Char) ∉ lastSegment u.data := fun hmem => hbs (lastSegment_subset _ _ hmem)
  have hb1 : brokenPdfSub (lastSegment u.data) = lastSegment u.data := brokenPdfSub_no_bs _ hbseg
  have hc2 : c ∈ replPP (brokenPdfSub (lastSegment u.data)) := by
    rw [hb1]
    exact replPP_mem c (toLowerF_ne c hcf '_' (by decide)) (toLowerF_ne c hcf 'p' (by decide))
      _ hcs
  have hc3 : c ∈ swapCh '_' ' ' (swapCh '-' ' ' (replPP (brokenPdfSub (lastSegment u.data)))) :=
    swapCh_mem _ _ _ _ (swapCh_mem _ _ _ _ hc2 (toLowerF_ne c hcf '-' (by decide)))
      (toLowerF_ne c hcf '_' (by decide))
  have hne3 : ¬((swapCh '_' ' '
      (swapCh '-' ' ' (replPP (brokenPdfSub (lastSegment u.data))))).isEmpty = true) := by
    intro hempty
    rw [List.isEmpty_iff] at hempty
    rw [hempty] at hc3
    exact List.not_mem_nil c hc3
  simp only [inferNameFromUrl]
  rw [if_neg hne3]
  apply mk_ne_empty_of_ne_nil
  intro hnil
  have hmem : c ∈ stripL (swapCh '_' ' '
      (swapCh '-' ' ' (replPP (brokenPdfSub (lastSegment u.data))))) :=
    mem_stripL_of_mem hc3 (toLowerF_not_space c hcf)
  have hlen : 0 < (stripL (swapCh '_' ' '
      (swapCh '-' ' ' (replPP (brokenPdfSub (lastSegment u.data)))))).length :=
    List.length_pos.mpr (List.ne_nil_of_mem hmem)
  rw [← titleGo_length false] at hlen
  rw [hnil] at hlen
  exact Nat.lt_irrefl 0 hlen

theorem isCandidateName_ne_empty (s town : String) (h : isCandidateName s town = true) :
    s ≠ "" := by
  intro heq
  subst heq
  have hfalse : isCandidateName "" town = false := by
    simp only [isCandidateName]
    rfl
  rw [hfalse] at h
  cases h

theorem mem_appendToLastName :
    ∀ (ps : List Provider) (line : String) (r : Provider), r ∈ appendToLastName ps line →
      ∃ r0 ∈ ps, r.url = r0.url ∧ (r = r0 ∨ r.name = stripS (r0.name ++ " " ++ line)) := by
  intro ps
  induction ps with
  | nil => intro line r h; rw [appendToLastName] at h; cases h
  | cons p rest ih =>
    intro line r h
    cases rest with
    | nil =>
      rw [appendToLastName] at h
      rcases List.mem_cons.mp h with heq | h2
      · exact ⟨p, List.mem_cons_self _ _, by rw [heq], Or.inr (by rw [heq])⟩
      · cases h2
    | cons q rest2 =>
      rw [appendToLastName] at h
      rcases List.mem_cons.mp h with heq | h2
      · exact ⟨p, List.mem_cons_self _ _, by rw [heq], Or.inl heq⟩
      · obtain ⟨r0, hr0, hurl, hname⟩ := ih line r h2
        exact ⟨r0, List.mem_cons_of_mem _ hr0, hurl, hname⟩

theorem contLineCond_paren (st : ParseState) (line : String) (h : contLineCond st line = true) :
    ('(' : Char) ∈ line.data := by
  unfold contLineCond at h
  simp only [Bool.and_eq_true] at h
  obtain ⟨⟨h1, h2⟩, h3⟩ := h
  obtain ⟨t, ht⟩ := (leadsWith_iff _ _).mp h2
  have hp : ('(' : Char) ∈ stripL line.data := by
    rw [ht]
    exact List.mem_append_of_mem_left _ (List.mem_cons_self _ _)
  exact mem_of_mem_stripL hp

theorem chosenName_ne_empty (town : String) (st : ParseState) (line : String) (i n : Nat)
    (hbs : ('\\' : Char) ∉ line.data)
    (hurl : searchURL line.data = some (i, n)) :
    (match (if isCandidateName (nameBefore line i) town then some (nameBefore line i)
      else
        match st.last_name with
        | some ln => if isCandidateName ln town then some ln else none
        | none => none) with
     | some nm => nm
     | none => inferNameFromUrl (urlAt line i n)) ≠ "" := by
  have hinfer : inferNameFromUrl (urlAt line i n) ≠ "" := by
    obtain ⟨hne, hsub, c, hlast, hf⟩ := searchURL_facts line.data i n hurl
    apply inferNameFromUrl_ne_empty
    · intro hmem
      exact hbs (hsub _ hmem)
    · exact ⟨c, hlast, hf⟩
  by_cases h1 : isCandidateName (nameBefore line i) town = true
  · rw [if_pos h1]
    exact isCandidateName_ne_empty _ _ h1
  · rw [if_neg h1]
    cases hl : st.last_name with
    | none => exact hinfer
    | some ln =>
      dsimp only
      by_cases h2 : isCandidateName ln town = true
      · rw [if_pos h2]
        exact isCandidateName_ne_empty _ _ h2
      · rw [if_neg h2]
        exact hinfer

theorem parseStep_inv (town : String) (st : ParseState) (line : String)
    (hinv : ParseInv st) :
    ParseInv (parseStep town st line) := by
  obtain ⟨hprov, hnd⟩ := hinv
  unfold parseStep
  by_cases hcont : contLineCond st line = true
  · rw [if_pos hcont]
    constructor
    · intro r hr
      obtain ⟨r0, hr0, hurl, hname⟩ := mem_appendToLastName st.providers line r hr
      obtain ⟨hu0, hs0⟩ := hprov r0 hr0
      exact ⟨by rw [hurl]; exact hu0, by rw [hurl]; exact hs0⟩
    · show ((appendToLastName st.providers line).map Provider.url).Nodup
      rw [appendToLastName_map_url]
      exact hnd
  · rw [if_neg hcont]
    cases hurl : searchURL line.data with
    | none =>
      by_cases hcand : isCandidateName line town = true
      · rw [if_pos hcand]; exact ⟨hprov, hnd⟩
      · rw [if_neg hcand]; exact ⟨hprov, hnd⟩
    | some p =>
      obtain ⟨i, n⟩ := p
      dsimp only
      by_cases hseen : urlAt line i n ∈ st.seen_urls
      · rw [if_pos hseen]; exact ⟨hprov, hnd⟩
      · rw [if_neg hseen]
        constructor
        · intro r hr
          rcases List.mem_append.mp hr with hold | hnew
          · obtain ⟨hu0, hs0⟩ := hprov r hold
            exact ⟨hu0, List.mem_cons_of_mem _ hs0⟩
          · rw [List.mem_singleton] at hnew
            subst hnew
            refine ⟨?_, List.mem_cons_self _ _⟩
            show (⟨(line.data.drop i).take n⟩ : String) ≠ ""
            exact mk_ne_empty_of_ne_nil _ (searchURL_facts line.data i n hurl).1
        · show ((st.providers ++ [_]).map Provider.url).Nodup
          rw [List.map_append]
          apply List.Nodup.append hnd
          · simp only [List.map_cons, List.map_nil]
            exact List.nodup_singleton _
          · intro u hu1 hu2
            simp only [List.map_cons, List.map_nil, List.mem_singleton] at hu2
            subst hu2
            obtain ⟨r, hr, hru⟩ := List.mem_map.mp hu1
            have hs0 : r.url ∈ st.seen_urls := (hprov r hr).2
            rw [hru] at hs0
            exact hseen hs0

theorem parse_inv_fold (town : String) :
    ∀ (lines : List String) (st : ParseState),
      ParseInv st → ParseInv (lines.foldl (parseStep town) st) := by
  intro lines
  induction lines with
  | nil => intro st h; exact h
  | cons l rest ih =>
    intro st hinv
    rw [List.foldl_cons]
    exact ih _ (parseStep_inv town st l hinv)

theorem parseStep_names (town : String) (st : ParseState) (line : String)
    (hbs : ('\\' : Char) ∉ line.data)
    (hn : ∀ r ∈ st.providers, r.name ≠ "") :
    ∀ r ∈ (parseStep town st line).providers, r.name ≠ "" := by
  unfold parseStep
  by_cases hcont : contLineCond st line = true
  · rw [if_pos hcont]
    intro r hr
    obtain ⟨r0, hr0, hurl, hname⟩ := mem_appendToLastName st.providers line r hr
    rcases hname with rfl | hne
    · exact hn r hr0
    · rw [hne]
      show (⟨stripL (r0.name ++ " " ++ line).data⟩ : String) ≠ ""
      apply mk_ne_empty_of_ne_nil
      apply List.ne_nil_of_mem (a := '(')
      apply mem_stripL_of_mem ?_ (by decide)
      rw [String.data_append, String.data_append]
      exact List.mem_append_of_mem_right _ (contLineCond_paren st line hcont)
  · rw [if_neg hcont]
    cases hurl : searchURL line.data with
    | none =>
      by_cases hcand : isCandidateName line town = true
      · rw [if_pos hcand]
        intro r hr
        exact hn r hr
      · rw [if_neg hcand]
        exact hn
    | some p =>
      obtain ⟨i, n⟩ := p
      dsimp only
      by_cases hseen : urlAt line i n ∈ st.seen_urls
      · rw [if_pos hseen]
        exact hn
      · rw [if_neg hseen]
        intro r hr
        rcases List.mem_append.mp hr with hold | hnew
        · exact hn r hold
        · rw [List.mem_singleton] at hnew
          subst hnew
          exact chosenName_ne_empty town st line i n hbs hurl

theorem parse_names_fold (town : String) :
    ∀ (lines : List String) (st : ParseState),
      (∀ l ∈ lines, ('\\' : Char) ∉ l.data) →
      (∀ r ∈ st.providers, r.name ≠ "") →
      ∀ r ∈ (lines.foldl (parseStep town) st).providers, r.name ≠ "" := by
  intro lines
  induction lines with
  | nil => intro st _ h; exact h
  | cons l rest ih =>
    intro st hbs hn
    rw [List.foldl_cons]
    exact ih _ (fun x hx => hbs x (List.mem_cons_of_mem _ hx))
      (parseStep_names town st l (hbs l (List.mem_cons_self _ _)) hn)

/-- C7 counterexample: the claim asserts every emitted record has a non-empty
name, but on a single line holding only a URL whose final path segment is a
hyphen, a backslash, and ".pdf" the parser emits a record whose name is the
empty string: the URL-derived fallback strips the backslash and ".pdf" (the
doubled backslash of the raw-string pattern matches exactly here), leaving a
lone hyphen that the hyphen-to-space replacement and strip reduce to nothing,
while the code takes the non-empty pre-title-case branch. -/
theorem thm_c7_counterexample :
    parse_providers_from_town_pdf ["http://a/-\\.pdf"] "Hartford" =
      [⟨"", "http://a/-\\.pdf"⟩] ∧
    (⟨"", "http://a/-\\.pdf"⟩ : Provider).name = "" := ⟨by decide, rfl⟩

/-- C7 (amended): unconditionally, every record emitted by the parser has a
non-empty link, link URLs are pairwise distinct within one parse, and a
non-continuation line whose URL was already emitted is skipped entirely (the
parser state is unchanged), so the first occurrence wins; every record's name
is also non-empty provided no input line contains a backslash character (a
backslash can defeat the broken trailing ".pdf" strip and leave a blank
inferred name, as the counterexample shows). -/
theorem thm_c7_amended (lines : List String) (town : String) :
    (∀ r ∈ parse_providers_from_town_pdf lines town, r.url ≠ "") ∧
    ((parse_providers_from_town_pdf lines town).map Provider.url).Nodup ∧
    (∀ (st : ParseState) (line : String) (i n : Nat),
      contLineCond st line = false → searchURL line.data = some (i, n) →
      urlAt line i n ∈ st.seen_urls → parseStep town st line = st) ∧
    ((∀ l ∈ lines, ('\\' : Char) ∉ l.data) →
      ∀ r ∈ parse_providers_from_town_pdf lines town, r.name ≠ "") := by
  have hinv : ParseInv (lines.foldl (parseStep town) ⟨[], [], none⟩) :=
    parse_inv_fold town lines ⟨[], [], none⟩
      ⟨fun r hr => absurd hr (List.not_mem_nil r), List.nodup_nil⟩
  refine ⟨fun r hr => (hinv.1 r hr).1, hinv.2, ?_, ?_⟩
  · intro st line i n hcont hurl hseen
    unfold parseStep
    rw [if_neg (by rw [hcont]; exact fun h => Bool.false_ne_true h), hurl]
    dsimp only
    rw [if_pos hseen]
  · intro hbs
    exact parse_names_fold town lines ⟨[], [], none⟩ hbs
      (fun r hr => absurd hr (List.not_mem_nil r))

/-- C7 witness: on a concrete one-line roster the amended invariants hold
(including non-empty names under the concrete no-backslash side condition),
and a concrete duplicate-URL line leaves a concrete parser state unchanged. -/
theorem thm_c7_witness :
    ((parse_providers_from_town_pdf
        ["Acme Corporation http://portal.ct.gov/x.pdf"] "Hartford").map
      Provider.url).Nodup ∧
    parseStep "Hartford" ⟨[], ["http://b/x.pdf"], none⟩ "Name http://b/x.pdf" =
      ⟨[], ["http://b/x.pdf"], none⟩ ∧
    (∀ r ∈ parse_providers_from_town_pdf
        ["Acme Corporation http://portal.ct.gov/x.pdf"] "Hartford", r.name ≠ "") := by
  have H := thm_c7_amended ["Acme Corporation http://portal.ct.gov/x.pdf"] "Hartford"
  exact ⟨H.2.1, H.2.2.1 ⟨[], ["http://b/x.pdf"], none⟩ "Name http://b/x.pdf" 5 14
    (by decide) (by decide) (by decide), H.2.2.2 (by decide)⟩
